import Mathlib

/-!
Verification of the Mandelbrot renderer (src/main.rs).

The development shallowly embeds the Rust program:
* IEEE-754 binary64 arithmetic (`F64`) is modelled exactly: a finite double
  is a canonical dyadic `m * 2^k` (`m` odd, or `m = 0 ∧ k = 0`); every
  arithmetic operation computes the exact rational result on integer
  fractions and rounds it to nearest, ties to even, with overflow to
  infinity and gradual underflow, as IEEE-754 prescribes for binary64.
  Signed zero is not distinguished (the program compares floats only with
  numeric equality, for which -0.0 and +0.0 agree).
* `escape_time`, `parse_pair`, `pixel_to_point`, `render` are translated
  function by function; `render`'s assertion is an `Option` (a `none`
  result is the Rust panic).
* the partition/dispatch layer of `main` is modelled by `chunks`
  (`slice::chunks_mut`) together with an explicit band-application
  function on buffers, so that scheduling order can be quantified over.
-/

set_option maxRecDepth 8000

namespace Mandelbrot

/-! ## Integer-fraction arithmetic used to build the binary64 model -/

/-- Power of two on naturals (kernel-friendly). -/
def p2 (e : ℕ) : ℕ := Nat.pow 2 e

/-- Fuel-driven floor of the base-2 logarithm; `ilog2go fuel n` is exact
whenever `1 ≤ n ≤ fuel`. -/
def ilog2go : ℕ → ℕ → ℕ
  | 0, _ => 0
  | fuel + 1, n => if n ≤ 1 then 0 else ilog2go fuel (n / 2) + 1

/-- Floor of the base-2 logarithm of a positive natural. -/
def ilog2 (n : ℕ) : ℕ := ilog2go n n

/-- Unnormalised integer fraction `n / d`; all operations below keep `d`
positive. -/
structure Frac where
  n : ℤ
  d : ℤ
deriving DecidableEq

def fracAdd (a b : Frac) : Frac := ⟨a.n * b.d + b.n * a.d, a.d * b.d⟩

def fracSub (a b : Frac) : Frac := ⟨a.n * b.d - b.n * a.d, a.d * b.d⟩

def fracMul (a b : Frac) : Frac := ⟨a.n * b.n, a.d * b.d⟩

/-- Exact quotient of fractions, renormalising the sign so the denominator
stays positive (the divisor is checked to be nonzero by the caller). -/
def fracDiv (a b : Frac) : Frac :=
  if b.n < 0 then ⟨-(a.n * b.d), a.d * -b.n⟩ else ⟨a.n * b.d, a.d * b.n⟩

/-- Strict comparison of fractions with positive denominators. -/
def fracLt (a b : Frac) : Bool := decide (a.n * b.d < b.n * a.d)

/-! ## IEEE-754 binary64 -/

/-- A binary64 value: NaN, a signed infinity, or a finite dyadic
`m * 2 ^ k` in canonical form (`m` odd, or `m = 0` and `k = 0`). -/
inductive F64 where
  | nan
  | inf (neg : Bool)
  | fin (m : ℤ) (k : ℤ)
deriving DecidableEq

/-- Exact fraction denoted by the finite double `m * 2 ^ k`. -/
def mkF (m k : ℤ) : Frac :=
  if 0 ≤ k then ⟨m * (p2 k.toNat : ℤ), 1⟩ else ⟨m, (p2 (-k).toNat : ℤ)⟩

/-- Round half to even of the fraction `xn / xd` (`xd > 0`). -/
def rnEpos (xn xd : ℤ) : ℤ :=
  let n0 := Int.fdiv xn xd
  let r := xn - n0 * xd
  if 2 * r < xd then n0
  else if xd < 2 * r then n0 + 1
  else if n0 % 2 = 0 then n0 else n0 + 1

/-- Floor of the base-2 logarithm of `p / q` for `p, q > 0`. -/
def flog2Frac (p q : ℤ) : ℤ :=
  if q ≤ p then (ilog2 (Int.fdiv p q).toNat : ℤ)
  else
    let f := ilog2 (Int.fdiv q p).toNat
    if q ≤ p * (p2 f : ℤ) then -(f : ℤ) else -(f : ℤ) - 1

/-- Strip factors of two to reach the canonical mantissa/exponent pair. -/
def canonGo : ℕ → ℤ → ℤ → F64
  | 0, m, k => F64.fin m k
  | fuel + 1, m, k => if m % 2 = 0 then canonGo fuel (m / 2) (k + 1) else F64.fin m k

def canon (m k : ℤ) : F64 := canonGo 60 m k

/-- Round a positive exact rational `p / q` to binary64, nearest, ties to
even: take the floor exponent, scale onto the 53-bit window (clamped at
the subnormal window `2^-1074`), round the scaled quotient half to even,
and detect overflow past `2^1024`. -/
def roundPos (p q : ℤ) : F64 :=
  let e : ℤ := flog2Frac p q
  let k : ℤ := max (e - 52) (-1074)
  let xn : ℤ := if 0 ≤ k then p else p * (p2 (-k).toNat : ℤ)
  let xd : ℤ := if 0 ≤ k then q * (p2 k.toNat : ℤ) else q
  let m : ℤ := rnEpos xn xd
  if (p2 2098 : ℤ) ≤ m * (p2 (k + 1074).toNat : ℤ) then F64.inf false
  else if m = 0 then F64.fin 0 0
  else canon m k

/-- Round an exact rational (as a fraction with positive denominator) to
the nearest binary64, ties to even, with IEEE overflow and underflow;
round-to-nearest-even commutes with negation, so the sign is split off
first. -/
def roundFrac (x : Frac) : F64 :=
  if x.n = 0 then F64.fin 0 0
  else if x.n < 0 then
    match roundPos (-x.n) x.d with
    | F64.nan => F64.nan
    | F64.inf _ => F64.inf true
    | F64.fin m k => F64.fin (-m) k
  else roundPos x.n x.d

/-- IEEE binary64 addition. -/
def fadd : F64 → F64 → F64
  | .nan, _ => .nan
  | _, .nan => .nan
  | .inf s, .inf t => if s = t then .inf s else .nan
  | .inf s, .fin _ _ => .inf s
  | .fin _ _, .inf t => .inf t
  | .fin m1 k1, .fin m2 k2 => roundFrac (fracAdd (mkF m1 k1) (mkF m2 k2))

/-- IEEE binary64 subtraction. -/
def fsub : F64 → F64 → F64
  | .nan, _ => .nan
  | _, .nan => .nan
  | .inf s, .inf t => if s = t then .nan else .inf s
  | .inf s, .fin _ _ => .inf s
  | .fin _ _, .inf t => .inf (!t)
  | .fin m1 k1, .fin m2 k2 => roundFrac (fracSub (mkF m1 k1) (mkF m2 k2))

/-- IEEE binary64 multiplication. -/
def fmul : F64 → F64 → F64
  | .nan, _ => .nan
  | _, .nan => .nan
  | .inf s, .inf t => .inf (s != t)
  | .inf s, .fin m _ => if m = 0 then .nan else .inf (s != decide (m < 0))
  | .fin m _, .inf t => if m = 0 then .nan else .inf (t != decide (m < 0))
  | .fin m1 k1, .fin m2 k2 => roundFrac (fracMul (mkF m1 k1) (mkF m2 k2))

/-- IEEE binary64 division. -/
def fdiv : F64 → F64 → F64
  | .nan, _ => .nan
  | _, .nan => .nan
  | .inf _, .inf _ => .nan
  | .inf s, .fin m _ => .inf (s != decide (m < 0))
  | .fin _ _, .inf _ => .fin 0 0
  | .fin m1 k1, .fin m2 k2 =>
    if m2 = 0 then (if m1 = 0 then .nan else .inf (decide (m1 < 0)))
    else roundFrac (fracDiv (mkF m1 k1) (mkF m2 k2))

/-- IEEE binary64 strict greater-than (false on NaN operands). -/
def fgt : F64 → F64 → Bool
  | .nan, _ => false
  | _, .nan => false
  | .inf s, .inf t => !s && t
  | .inf s, .fin _ _ => !s
  | .fin _ _, .inf t => t
  | .fin m1 k1, .fin m2 k2 => fracLt (mkF m2 k2) (mkF m1 k1)

/-- Conversion `usize as f64` (rounds for huge values, as the cast does). -/
def natToF64 (n : ℕ) : F64 := roundFrac ⟨(n : ℤ), 1⟩

/-- Double literal written as an integer (e.g. `4.0`). -/
def ofInt (z : ℤ) : F64 := roundFrac ⟨z, 1⟩

/-! ## Complex arithmetic (num crate `Complex<f64>`) -/

/-- Complex number with binary64 components (`num::Complex<f64>`). -/
structure Cx where
  re : F64
  im : F64
deriving DecidableEq

/-- Componentwise complex addition. -/
def cadd (a b : Cx) : Cx := ⟨fadd a.re b.re, fadd a.im b.im⟩

/-- Complex multiplication as the num crate computes it:
`(a.re*b.re - a.im*b.im, a.re*b.im + a.im*b.re)`. -/
def cmul (a b : Cx) : Cx :=
  ⟨fsub (fmul a.re b.re) (fmul a.im b.im),
   fadd (fmul a.re b.im) (fmul a.im b.re)⟩

/-- Squared norm `re*re + im*im` (num crate `norm_sqr`). -/
def norm_sqr (z : Cx) : F64 := fadd (fmul z.re z.re) (fmul z.im z.im)

/-! ## escape_time (main.rs lines 18-27) -/

/-- Loop body of `escape_time`: iterate `z = z*z + c` with the remaining
fuel `limit - i`, returning `some i` as soon as `norm_sqr z > 4.0`. -/
def escapeGo (c : Cx) : Cx → ℕ → ℕ → Option ℕ
  | _, _, 0 => none
  | z, i, fuel + 1 =>
    let z1 := cadd (cmul z z) c
    if fgt (norm_sqr z1) (ofInt 4) then some i else escapeGo c z1 (i + 1) fuel

/-- Rust `escape_time(c, limit)`: `Some i` if `c` escapes within `i < limit`
iterations, `None` otherwise. -/
def escape_time (c : Cx) (limit : ℕ) : Option ℕ :=
  escapeGo c ⟨F64.fin 0 0, F64.fin 0 0⟩ 0 limit

/-! ## parse_pair / parse_complex (main.rs lines 29-46) -/

/-- Index of the first occurrence of a character (Rust `str::find`; the
strings of interest are ASCII, so byte and character indices agree). -/
def findChar (sep : Char) : List Char → Option ℕ
  | [] => none
  | c :: cs => if c = sep then some 0 else Option.map (fun n => n + 1) (findChar sep cs)

/-- Rust `parse_pair::<T>`: split at the first separator and parse both
sides with the type's `from_str`. -/
def parse_pair {T : Type} (fromStr : List Char → Option T) (s : List Char)
    (separator : Char) : Option (T × T) :=
  match findChar separator s with
  | none => none
  | some index =>
    match fromStr (s.take index), fromStr (s.drop (index + 1)) with
    | some l, some r => some (l, r)
    | _, _ => none

/-- Value of a decimal digit character. -/
def digitVal (c : Char) : Option ℕ :=
  if '0' ≤ c ∧ c ≤ '9' then some (c.toNat - '0'.toNat) else none

/-- Accumulate decimal digits; fails on any non-digit. -/
def digitsGo (acc : ℕ) : List Char → Option ℕ
  | [] => some acc
  | c :: cs =>
    match digitVal c with
    | some d => digitsGo (acc * 10 + d) cs
    | none => none

/-- Modelled from Rust's standard library: `i32::from_str` accepts an
optional sign followed by one or more decimal digits, consumes the whole
string, and fails on overflow past the i32 range. -/
def i32_from_str (s : List Char) : Option ℤ :=
  match s with
  | [] => none
  | '+' :: rest =>
    if rest = [] then none
    else (digitsGo 0 rest).bind
      (fun v => if (v : ℤ) ≤ 2 ^ 31 - 1 then some (v : ℤ) else none)
  | '-' :: rest =>
    if rest = [] then none
    else (digitsGo 0 rest).bind
      (fun v => if (v : ℤ) ≤ 2 ^ 31 then some (-(v : ℤ)) else none)
  | _ =>
    (digitsGo 0 s).bind
      (fun v => if (v : ℤ) ≤ 2 ^ 31 - 1 then some (v : ℤ) else none)

/-! ## pixel_to_point (main.rs lines 48-62) -/

/-- Rust `pixel_to_point(bounds, pixel, top_left, bot_right)`; `bounds` is
`(width, height)` and `pixel` is `(col, row)`. -/
def pixel_to_point (bounds : ℕ × ℕ) (pixel : ℕ × ℕ)
    (top_left : Cx) (bot_right : Cx) : Cx :=
  let w := fsub bot_right.re top_left.re
  let h := fsub top_left.im bot_right.im
  ⟨fadd top_left.re (fdiv (fmul (natToF64 pixel.1) w) (natToF64 bounds.1)),
   fsub top_left.im (fdiv (fmul (natToF64 pixel.2) h) (natToF64 bounds.2))⟩

/-! ## render (main.rs lines 64-82) -/

/-- Grayscale byte written for one pixel: `0` if bounded, otherwise
`255u8 - (i as u8)` (the cast truncates modulo 256). -/
def colorOf : Option ℕ → ℕ
  | none => 0
  | some i => 255 - i % 256

/-- Byte value of pixel `(col, row)` under the given bounds and corners. -/
def pixByte (bounds : ℕ × ℕ) (top_left bot_right : Cx) (col row : ℕ) : ℕ :=
  colorOf (escape_time (pixel_to_point bounds (col, row) top_left bot_right) 255)

/-- Nested render loops: for each `row` then `col`, write
`pixels[row * width + col]`. -/
def renderLoop (pixels : List ℕ) (bounds : ℕ × ℕ) (top_left bot_right : Cx) :
    List ℕ :=
  (List.range bounds.2).foldl
    (fun b row =>
      (List.range bounds.1).foldl
        (fun b2 col => b2.set (row * bounds.1 + col) (pixByte bounds top_left bot_right col row))
        b)
    pixels

/-- Rust `render`: `none` is the assertion failure (panic) when the buffer
length is not `width * height`; otherwise the fully rendered buffer. -/
def render (pixels : List ℕ) (bounds : ℕ × ℕ) (top_left bot_right : Cx) :
    Option (List ℕ) :=
  if pixels.length = bounds.1 * bounds.2
  then some (renderLoop pixels bounds top_left bot_right)
  else none

/-! ## Partition / dispatch layer of main (main.rs lines 117-141) -/

/-- Band height chosen in `main`: `rows_per_band = bounds.1 / threads + 1`
(integer division; the source fixes `threads = 8`). -/
def rows_per_band (height threads : ℕ) : ℕ := height / threads + 1

/-- Rust `slice::chunks_mut(s)`: consecutive chunks of `s` elements, the
last chunk possibly shorter (empty result when `s = 0`, where the Rust
call would panic; the program only uses `s ≥ 1`). -/
def chunks {α : Type} (s : ℕ) : List α → List (List α)
  | [] => []
  | x :: xs =>
    if h : s = 0 then []
    else (x :: xs).take s :: chunks s ((x :: xs).drop s)
termination_by l => l.length
decreasing_by
  simp only [List.length_drop, List.length_cons]
  omega

/-- Finiteness test on a binary64 value. -/
def F64.isFinite : F64 → Bool
  | .fin _ _ => true
  | _ => false

/-! ## Band partition of main, as offsets into the flat buffer

Chunk `i` of `chunks s buf` (with `buf.length = L`) occupies the index
range `[i * s, i * s + min s (L - i * s))`; `main` renders each chunk with
its own corners and bounds.  The following definitions name those pieces
so that the concurrent dispatch can be modelled as applying the bands'
writes to a buffer in an arbitrary scheduling order. -/

/-- Start offset of chunk `i` for chunk size `s`. -/
def bandStart (s i : ℕ) : ℕ := i * s

/-- Length of chunk `i` of a buffer of length `L` (chunk size `s`). -/
def bandLen (s L i : ℕ) : ℕ := min s (L - i * s)

/-- Number of chunks `chunks s` produces on a buffer of length `L`. -/
def numBands (s L : ℕ) : ℕ := (L + s - 1) / s

/-- Row count of band `i` (`height = band.len() / bounds.0` in `main`). -/
def bandHeight (w h t i : ℕ) : ℕ :=
  bandLen (rows_per_band h t * w) (w * h) i / w

/-- Corner `band_top_left = pixel_to_point(bounds, (0, top), ...)`. -/
def bandTopLeft (w h t : ℕ) (tl br : Cx) (i : ℕ) : Cx :=
  pixel_to_point (w, h) (0, rows_per_band h t * i) tl br

/-- Corner `band_bot_right = pixel_to_point(bounds, (bounds.0, top + height), ...)`. -/
def bandBotRight (w h t : ℕ) (tl br : Cx) (i : ℕ) : Cx :=
  pixel_to_point (w, h) (w, rows_per_band h t * i + bandHeight w h t i) tl br

/-- Bytes `render` produces for band `i` (row-major rows of the band). -/
def bandBytes (w h t : ℕ) (tl br : Cx) (i : ℕ) : List ℕ :=
  ((List.range (bandHeight w h t i)).map (fun row =>
    (List.range w).map (fun col =>
      pixByte (w, bandHeight w h t i) (bandTopLeft w h t tl br i)
        (bandBotRight w h t tl br i) col row))).flatten

/-- Effect of one band's render on the whole buffer (viewed as a map from
flat indices to bytes): indices inside the band's exclusive range take the
band's bytes, all others are untouched. -/
def applyBand (w h t : ℕ) (tl br : Cx) (i : ℕ) (b : ℕ → ℕ) : ℕ → ℕ :=
  fun j =>
    if bandStart (rows_per_band h t * w) i ≤ j ∧
       j < bandStart (rows_per_band h t * w) i + bandLen (rows_per_band h t * w) (w * h) i
    then (bandBytes w h t tl br i).getD (j - bandStart (rows_per_band h t * w) i) 0
    else b j

/-- Run the bands over the buffer in the given scheduling order. -/
def applyBands (w h t : ℕ) (tl br : Cx) (order : List ℕ) (b : ℕ → ℕ) : ℕ → ℕ :=
  order.foldl (fun buf i => applyBand w h t tl br i buf) b

/-- Byte value of pixel `(row, col)` as a function of the pixel's own
coordinates and the global inputs only: the pixel lands in band
`row / rows_per_band` and is rendered with that band's bounds and corners. -/
def pixelValue (w h t : ℕ) (tl br : Cx) (row col : ℕ) : ℕ :=
  pixByte (w, bandHeight w h t (row / rows_per_band h t))
    (bandTopLeft w h t tl br (row / rows_per_band h t))
    (bandBotRight w h t tl br (row / rows_per_band h t))
    col (row - rows_per_band h t * (row / rows_per_band h t))

/-! ## Supporting lemmas -/

/-- Iterating from the origin with `c = (0,0)` keeps `z` exactly `(0,0)`
and never escapes, whatever the remaining fuel. -/
theorem escapeGo_origin (fuel i : ℕ) :
    escapeGo ⟨F64.fin 0 0, F64.fin 0 0⟩ ⟨F64.fin 0 0, F64.fin 0 0⟩ i fuel = none := by
  induction fuel generalizing i with
  | zero => rfl
  | succ n ih =>
    have hstep :
        cadd (cmul ⟨F64.fin 0 0, F64.fin 0 0⟩ ⟨F64.fin 0 0, F64.fin 0 0⟩)
          ⟨F64.fin 0 0, F64.fin 0 0⟩ = ⟨F64.fin 0 0, F64.fin 0 0⟩ := by decide
    have hcmp : fgt (norm_sqr (⟨F64.fin 0 0, F64.fin 0 0⟩ : Cx)) (ofInt 4) = false := by
      decide
    simp only [escapeGo, hstep, hcmp, Bool.false_eq_true, if_false]
    exact ih (i + 1)

/-- Any escape index reported by the loop is below `i + fuel`. -/
theorem escapeGo_lt (c : Cx) (fuel : ℕ) :
    ∀ (z : Cx) (i j : ℕ), escapeGo c z i fuel = some j → j < i + fuel := by
  induction fuel with
  | zero => intro z i j hj; cases hj
  | succ n ih =>
    intro z i j hj
    simp only [escapeGo] at hj
    by_cases hc : fgt (norm_sqr (cadd (cmul z z) c)) (ofInt 4) = true
    · rw [if_pos hc] at hj
      cases hj
      omega
    · rw [if_neg hc] at hj
      have := ih _ _ _ hj
      omega

/-- Escape indices of `escape_time c limit` are below `limit`. -/
theorem escape_time_lt (c : Cx) (limit j : ℕ) :
    escape_time c limit = some j → j < limit := by
  intro hj
  have := escapeGo_lt c limit _ 0 j hj
  omega

/-! ## C1: choice of rows_per_band -/

/-- C1 counterexample: at height 8 the code computes `8 / 8 + 1 = 2`
bands-worth of rows, while `ceil(8 / 8) = 1`. -/
theorem c1_counterexample : rows_per_band 8 8 ≠ (8 + 8 - 1) / 8 := by decide

/-- C1 (amended): the code computes `rows_per_band = height / 8 + 1`
(floor division plus one); this equals `ceil(height / 8)` exactly when 8
does not divide the height, and exceeds it by one when it does. -/
theorem c1_rows_per_band (height : ℕ) (h1 : 1 ≤ height) :
    rows_per_band height 8 = height / 8 + 1 ∧
    (¬ 8 ∣ height → rows_per_band height 8 = (height + 8 - 1) / 8) ∧
    (8 ∣ height → rows_per_band height 8 = (height + 8 - 1) / 8 + 1) := by
  refine ⟨rfl, ?_, ?_⟩ <;>
    · intro hd
      rw [Nat.dvd_iff_mod_eq_zero] at hd
      unfold rows_per_band
      omega

/-- C1 witness: at height 9 the theorem applies and gives `9 / 8 + 1`. -/
theorem c1_rows_per_band_witness :
    1 ≤ 9 ∧ rows_per_band 9 8 = 9 / 8 + 1 :=
  ⟨by decide, (c1_rows_per_band 9 (by decide)).1⟩

/-! ## C8: pixel_to_point formula and round-trip test -/

/-- C8: `pixel_to_point` computes exactly
`top_left.re + col * (bot_right.re - top_left.re) / width` and
`top_left.im - row * (top_left.im - bot_right.im) / height` in binary64,
and the repository's round-trip test holds bit-exactly:
`pixel_to_point((100,100),(25,75),(-1,1),(1,-1)) = (-0.5,-0.5)`
(the double `-0.5` is `F64.fin (-1) (-1)`). -/
theorem c8_pixel_to_point :
    (∀ (bounds pixel : ℕ × ℕ) (top_left bot_right : Cx),
      pixel_to_point bounds pixel top_left bot_right =
        ⟨fadd top_left.re
            (fdiv (fmul (natToF64 pixel.1) (fsub bot_right.re top_left.re))
              (natToF64 bounds.1)),
         fsub top_left.im
            (fdiv (fmul (natToF64 pixel.2) (fsub top_left.im bot_right.im))
              (natToF64 bounds.2))⟩) ∧
    pixel_to_point (100, 100) (25, 75) ⟨ofInt (-1), ofInt 1⟩ ⟨ofInt 1, ofInt (-1)⟩ =
      ⟨F64.fin (-1) (-1), F64.fin (-1) (-1)⟩ :=
  ⟨fun _ _ _ _ => rfl, by decide⟩

/-! ## C9: the origin never escapes -/

/-- C9: for every `limit ≥ 1`, `escape_time((0,0), limit)` is `None`:
the iterate `z*z + c` at the origin is exactly `(0,0)` again, its squared
norm `0.0` is not greater than `4.0`, and the loop therefore never
returns an escape index. -/
theorem c9_escape_origin (limit : ℕ) (h1 : 1 ≤ limit) :
    cadd (cmul ⟨F64.fin 0 0, F64.fin 0 0⟩ ⟨F64.fin 0 0, F64.fin 0 0⟩)
        ⟨F64.fin 0 0, F64.fin 0 0⟩ = ⟨F64.fin 0 0, F64.fin 0 0⟩ ∧
    fgt (norm_sqr (⟨F64.fin 0 0, F64.fin 0 0⟩ : Cx)) (ofInt 4) = false ∧
    escape_time ⟨F64.fin 0 0, F64.fin 0 0⟩ limit = none :=
  ⟨by decide, by decide, escapeGo_origin limit 0⟩

/-- C9 witness at `limit = 1`. -/
theorem c9_escape_origin_witness :
    1 ≤ 1 ∧ escape_time ⟨F64.fin 0 0, F64.fin 0 0⟩ 1 = none :=
  ⟨by decide, (c9_escape_origin 1 (by decide)).2.2⟩

/-! ## C5: render enforces its length precondition -/

/-- C5: `render` returns `none` (the Rust assertion panics) exactly when
the buffer length differs from `width * height`; and under the length
precondition every write index `row * width + col` with `row < height`,
`col < width` is strictly below the buffer length. -/
theorem c5_render_contract :
    (∀ (pixels : List ℕ) (bounds : ℕ × ℕ) (top_left bot_right : Cx),
        pixels.length ≠ bounds.1 * bounds.2 →
        render pixels bounds top_left bot_right = none) ∧
    (∀ (pixels : List ℕ) (bounds : ℕ × ℕ) (row col : ℕ),
        pixels.length = bounds.1 * bounds.2 → row < bounds.2 → col < bounds.1 →
        row * bounds.1 + col < pixels.length) := by
  constructor
  · intro pixels bounds top_left bot_right hne
    simp [render, hne]
  · intro pixels bounds row col hlen hr hc
    rw [hlen]
    calc row * bounds.1 + col < row * bounds.1 + bounds.1 := by omega
    _ = (row + 1) * bounds.1 := by ring
    _ ≤ bounds.2 * bounds.1 := Nat.mul_le_mul_right _ hr
    _ = bounds.1 * bounds.2 := Nat.mul_comm _ _

/-- C5 witness: a 3-byte buffer with bounds (2,2) makes render panic, and
the index bound holds at a concrete in-bounds pixel. -/
theorem c5_render_contract_witness :
    render [0, 0, 0] (2, 2) ⟨ofInt 0, ofInt 0⟩ ⟨ofInt 1, ofInt 1⟩ = none ∧
    1 * 2 + 1 < ([0, 0, 0, 0] : List ℕ).length :=
  ⟨c5_render_contract.1 [0, 0, 0] (2, 2) ⟨ofInt 0, ofInt 0⟩ ⟨ofInt 1, ofInt 1⟩ (by decide),
   c5_render_contract.2 [0, 0, 0, 0] (2, 2) 1 1 (by decide) (by decide) (by decide)⟩

/-! ## C6: parse_pair -/

/-- Characterisation of `findChar`: it returns the index of the first
occurrence of the separator, which is the length of the longest
separator-free prefix. -/
theorem findChar_eq (sep : Char) (s : List Char) :
    findChar sep s =
      if sep ∈ s then some ((s.takeWhile (fun c => c != sep)).length) else none := by
  induction s with
  | nil => simp [findChar]
  | cons c cs ih =>
    by_cases hc : c = sep
    · subst hc
      simp [findChar, List.takeWhile_cons]
    · by_cases hm : sep ∈ cs
      · simp [findChar, hc, ih, hm, List.takeWhile_cons, Ne.symm hc, bne_iff_ne]
      · simp [findChar, hc, ih, hm, List.takeWhile_cons, Ne.symm hc, bne_iff_ne]

/-- Taking as many elements as the `takeWhile` prefix recovers it. -/
theorem take_takeWhile_length {α : Type} (p : α → Bool) (s : List α) :
    s.take ((s.takeWhile p).length) = s.takeWhile p := by
  induction s with
  | nil => rfl
  | cons c cs ih =>
    by_cases hp : p c
    · simp [List.takeWhile_cons, hp, List.take_succ_cons, ih]
    · simp [List.takeWhile_cons, hp]

/-- C6: `parse_pair` succeeds exactly when the separator occurs in the
string and both the prefix before its first occurrence and the whole
suffix after it parse; in particular the repository's test vectors hold
for the i32 parser ("10,20" parses to (10,20); "10,20x", "10" and "10,"
fail). -/
theorem c6_parse_pair :
    (∀ (T : Type) (fromStr : List Char → Option T) (s : List Char) (separator : Char),
      (parse_pair fromStr s separator).isSome = true ↔
        (separator ∈ s ∧
         (fromStr (s.takeWhile (fun c => c != separator))).isSome = true ∧
         (fromStr (s.drop ((s.takeWhile (fun c => c != separator)).length + 1))).isSome
           = true)) ∧
    parse_pair i32_from_str "10,20".toList ',' = some (10, 20) ∧
    parse_pair i32_from_str "10,20x".toList ',' = none ∧
    parse_pair i32_from_str "10".toList ',' = none ∧
    parse_pair i32_from_str "10,".toList ',' = none := by
  refine ⟨?_, by decide, by decide, by decide, by decide⟩
  intro T fromStr s separator
  by_cases hm : separator ∈ s
  · simp only [parse_pair, findChar_eq, if_pos hm, take_takeWhile_length]
    cases hf1 : fromStr (s.takeWhile (fun c => c != separator)) with
    | none =>
      cases hf2 : fromStr
          (s.drop ((s.takeWhile (fun c => c != separator)).length + 1)) with
      | none => simp [hf1, hf2, hm]
      | some r => simp [hf1, hf2, hm]
    | some l =>
      cases hf2 : fromStr
          (s.drop ((s.takeWhile (fun c => c != separator)).length + 1)) with
      | none => simp [hf1, hf2, hm]
      | some r => simp [hf1, hf2, hm]
  · simp only [parse_pair, findChar_eq, if_neg hm]
    simp [hm]

/-! ## Chunk lemmas (slice::chunks_mut semantics) -/

/-- Unfolding of `chunks` on a nonempty list. -/
theorem chunks_cons {α : Type} {s : ℕ} (hs : s ≠ 0) (x : α) (xs : List α) :
    chunks s (x :: xs) = (x :: xs).take s :: chunks s ((x :: xs).drop s) := by
  rw [chunks]
  simp [hs]

/-- Concatenating the chunks gives back the original buffer: the partition
covers every element exactly once, in order. -/
theorem chunks_flatten {α : Type} (s : ℕ) (hs : s ≠ 0) (l : List α) :
    (chunks s l).flatten = l := by
  cases l with
  | nil => simp [chunks]
  | cons x xs =>
    rw [chunks_cons hs, List.flatten_cons, chunks_flatten s hs ((x :: xs).drop s)]
    exact List.take_append_drop s (x :: xs)
termination_by l.length
decreasing_by simp only [List.length_drop, List.length_cons]; omega

/-- The number of chunks is the ceiling of `length / s`. -/
theorem chunks_length {α : Type} (s : ℕ) (hs : s ≠ 0) (l : List α) :
    (chunks s l).length = (l.length + s - 1) / s := by
  cases l with
  | nil =>
    simp only [chunks, List.length_nil]
    rw [eq_comm, Nat.div_eq_of_lt (by omega)]
  | cons x xs =>
    rw [chunks_cons hs, List.length_cons, chunks_length s hs ((x :: xs).drop s)]
    simp only [List.length_drop, List.length_cons]
    rcases le_or_lt (xs.length + 1) s with hle | hlt
    · have e1 : xs.length + 1 - s + s - 1 = s - 1 := by omega
      have e2 : xs.length + 1 + s - 1 = xs.length + s := by omega
      rw [e1, e2, Nat.add_div_right _ (by omega), Nat.div_eq_of_lt (by omega),
        Nat.div_eq_of_lt (by omega)]
    · have e1 : xs.length + 1 - s + s - 1 = xs.length := by omega
      have e2 : xs.length + 1 + s - 1 = xs.length + s := by omega
      rw [e1, e2, Nat.add_div_right _ (by omega)]
termination_by l.length
decreasing_by simp only [List.length_drop, List.length_cons]; omega

/-- Length of chunk `i` through the total lookup: `min s (remaining)`. -/
theorem chunks_getElem?_length {α : Type} (s : ℕ) (hs : s ≠ 0) :
    ∀ (i : ℕ) (l : List α), i < (chunks s l).length →
    ∃ c, (chunks s l)[i]? = some c ∧ c.length = min s (l.length - i * s) := by
  intro i
  induction i with
  | zero =>
    intro l hi
    cases l with
    | nil => simp [chunks] at hi
    | cons x xs =>
      rw [chunks_cons hs]
      exact ⟨(x :: xs).take s, by simp, by simp [List.length_take]⟩
  | succ i ih =>
    intro l hi
    cases l with
    | nil => simp [chunks] at hi
    | cons x xs =>
      rw [chunks_cons hs] at hi
      rw [chunks_cons hs]
      simp only [List.getElem?_cons_succ]
      obtain ⟨c, hc, hlen⟩ := ih ((x :: xs).drop s) (by simpa using hi)
      refine ⟨c, hc, ?_⟩
      rw [hlen]
      simp only [List.length_drop, List.length_cons]
      congr 1
      rw [Nat.succ_mul]
      omega

/-- Length of chunk `i`: `min s (remaining length)`. -/
theorem chunks_getElem_length {α : Type} (s : ℕ) (hs : s ≠ 0) (l : List α) (i : ℕ)
    (hi : i < (chunks s l).length) :
    ((chunks s l)[i]).length = min s (l.length - i * s) := by
  obtain ⟨c, hc, hclen⟩ := chunks_getElem?_length s hs i l hi
  rw [List.getElem?_eq_getElem hi] at hc
  cases hc
  exact hclen

/-- Scaling both buffer length and chunk size by the row width does not
change the chunk count: `ceil(w*h / (rpb*w)) = ceil(h / rpb)`. -/
theorem bands_count_scale (w rpb : ℕ) (hw : 1 ≤ w) (hrpb : 1 ≤ rpb) (h : ℕ) :
    (w * h + rpb * w - 1) / (rpb * w) = (h + rpb - 1) / rpb := by
  have hsw : 0 < rpb * w := Nat.mul_pos hrpb hw
  rcases le_or_lt h rpb with hle | hlt
  · rcases Nat.eq_zero_or_pos h with rfl | hpos
    · rw [Nat.mul_zero, Nat.zero_add, Nat.zero_add]
      rw [Nat.div_eq_of_lt (by omega), Nat.div_eq_of_lt (by omega)]
    · have hwh : 0 < w * h := Nat.mul_pos hw hpos
      have hmul : w * h ≤ rpb * w := by
        calc w * h ≤ w * rpb := Nat.mul_le_mul_left w hle
        _ = rpb * w := Nat.mul_comm _ _
      have g1 : (w * h + rpb * w - 1) / (rpb * w) = 1 :=
        Nat.div_eq_of_lt_le (by omega) (by omega)
      have g2 : (h + rpb - 1) / rpb = 1 :=
        Nat.div_eq_of_lt_le (by omega) (by omega)
      rw [g1, g2]
  · have hh0 : h - rpb + rpb = h := by omega
    have hsplit : w * h = w * (h - rpb) + rpb * w := by
      calc w * h = w * ((h - rpb) + rpb) := by rw [hh0]
      _ = w * (h - rpb) + rpb * w := by ring
    have e1 : w * h + rpb * w - 1 = (w * (h - rpb) + rpb * w - 1) + rpb * w := by omega
    have e2 : h + rpb - 1 = (h - rpb + rpb - 1) + rpb := by omega
    rw [e1, Nat.add_div_right _ hsw, e2, Nat.add_div_right _ hrpb,
      bands_count_scale w rpb hw hrpb (h - rpb)]
termination_by h
decreasing_by omega

/-- A band that is whole rows satisfies render's length assertion. -/
theorem render_ne_none_of_dvd (band : List ℕ) (w : ℕ) (top_left bot_right : Cx)
    (h : w ∣ band.length) :
    render band (w, band.length / w) top_left bot_right ≠ none := by
  show ¬ ((if band.length = w * (band.length / w)
    then some (renderLoop band (w, band.length / w) top_left bot_right)
    else none) = none)
  rw [if_pos (Nat.mul_div_cancel' h).symm]
  simp

/-! ## C2: the partition invariant -/

/-- C2: with `rows_per_band = h / 8 + 1` and chunk size
`rows_per_band * w`, the chunks of the output buffer concatenate back to
the buffer (each pixel covered exactly once, no gap, no overlap), every
band is at most `rows_per_band` rows, every band but the final one is
exactly `rows_per_band * w` bytes, and the band count is
`ceil(h / rows_per_band)`. -/
theorem c2_partition (w h : ℕ) (hw : 1 ≤ w) (hh : 1 ≤ h) (buf : List ℕ)
    (hlen : buf.length = w * h) :
    (chunks (rows_per_band h 8 * w) buf).flatten = buf ∧
    (∀ band ∈ chunks (rows_per_band h 8 * w) buf,
        band.length ≤ rows_per_band h 8 * w ∧
        band.length / w ≤ rows_per_band h 8) ∧
    (∀ i, i + 1 < (chunks (rows_per_band h 8 * w) buf).length →
        ∀ (hi : i < (chunks (rows_per_band h 8 * w) buf).length),
        ((chunks (rows_per_band h 8 * w) buf)[i]).length = rows_per_band h 8 * w) ∧
    (chunks (rows_per_band h 8 * w) buf).length
      = (h + rows_per_band h 8 - 1) / rows_per_band h 8 := by
  have hrpb : 1 ≤ rows_per_band h 8 := by unfold rows_per_band; omega
  have hs : rows_per_band h 8 * w ≠ 0 := by
    have := Nat.mul_pos hrpb hw; omega
  refine ⟨chunks_flatten _ hs buf, ?_, ?_, ?_⟩
  · intro band hband
    rcases List.mem_iff_getElem.mp hband with ⟨i, hi, rfl⟩
    rw [chunks_getElem_length _ hs buf i hi]
    refine ⟨min_le_left _ _, ?_⟩
    calc min (rows_per_band h 8 * w) (buf.length - i * (rows_per_band h 8 * w)) / w
        ≤ rows_per_band h 8 * w / w := Nat.div_le_div_right (min_le_left _ _)
    _ = rows_per_band h 8 := Nat.mul_div_cancel _ (by omega)
  · intro i hi1 hi
    rw [chunks_getElem_length _ hs buf i hi]
    rw [chunks_length _ hs] at hi1
    have h2 := (Nat.le_div_iff_mul_le (show 0 < rows_per_band h 8 * w by omega)).mp
      (show i + 2 ≤ (buf.length + rows_per_band h 8 * w - 1) / (rows_per_band h 8 * w)
        by omega)
    have e : (i + 2) * (rows_per_band h 8 * w)
        = i * (rows_per_band h 8 * w) + 2 * (rows_per_band h 8 * w) := by ring
    exact Nat.min_eq_left (by omega)
  · rw [chunks_length _ hs, hlen]
    exact bands_count_scale w (rows_per_band h 8) hw hrpb h

/-- C2 witness: bounds (2,3); `rows_per_band = 1`, three bands of 2 bytes. -/
theorem c2_partition_witness :
    1 ≤ 2 ∧
    (chunks (rows_per_band 3 8 * 2) [0, 0, 0, 0, 0, 0]).flatten = [0, 0, 0, 0, 0, 0] ∧
    (chunks (rows_per_band 3 8 * 2) [0, 0, 0, 0, 0, 0]).length
      = (3 + rows_per_band 3 8 - 1) / rows_per_band 3 8 :=
  ⟨by decide,
   (c2_partition 2 3 (by decide) (by decide) [0, 0, 0, 0, 0, 0] (by decide)).1,
   (c2_partition 2 3 (by decide) (by decide) [0, 0, 0, 0, 0, 0] (by decide)).2.2.2⟩

/-! ## C10: every band satisfies render's assertion -/

/-- C10: every band produced by the chunking of `main` has a nonzero
length that is an exact multiple of the width, so the band bounds
`(w, band.length / w)` recomputed in `main` always satisfy `render`'s
length assertion: `render` cannot return `none` on any band. -/
theorem c10_bands_render_safe (w h : ℕ) (hw : 1 ≤ w) (hh : 1 ≤ h) (buf : List ℕ)
    (hlen : buf.length = w * h) (top_left bot_right : Cx) :
    ∀ band ∈ chunks (rows_per_band h 8 * w) buf,
      band.length ≠ 0 ∧ w ∣ band.length ∧
      render band (w, band.length / w) top_left bot_right ≠ none := by
  have hrpb : 1 ≤ rows_per_band h 8 := by unfold rows_per_band; omega
  have hs : rows_per_band h 8 * w ≠ 0 := by
    have := Nat.mul_pos hrpb hw; omega
  intro band hband
  rcases List.mem_iff_getElem.mp hband with ⟨i, hi, rfl⟩
  have hlen2 := chunks_getElem_length _ hs buf i hi
  rw [chunks_length _ hs] at hi
  have hkey : i * (rows_per_band h 8 * w) < buf.length := by
    have h2 := (Nat.le_div_iff_mul_le (show 0 < rows_per_band h 8 * w by omega)).mp
      (show i + 1 ≤ (buf.length + rows_per_band h 8 * w - 1) / (rows_per_band h 8 * w)
        by omega)
    have e : (i + 1) * (rows_per_band h 8 * w)
        = i * (rows_per_band h 8 * w) + rows_per_band h 8 * w := by ring
    have hL : 1 ≤ buf.length := by rw [hlen]; exact Nat.mul_pos hw hh
    omega
  have hdvd : w ∣ min (rows_per_band h 8 * w) (buf.length - i * (rows_per_band h 8 * w)) := by
    rcases Nat.le_total (rows_per_band h 8 * w) (buf.length - i * (rows_per_band h 8 * w))
      with hmin | hmin
    · rw [Nat.min_eq_left hmin]
      exact dvd_mul_left w (rows_per_band h 8)
    · rw [Nat.min_eq_right hmin]
      apply Nat.dvd_sub'
      · rw [hlen]; exact dvd_mul_right w h
      · exact Dvd.dvd.mul_left (dvd_mul_left w (rows_per_band h 8)) i
  have hpos : 0 < min (rows_per_band h 8 * w) (buf.length - i * (rows_per_band h 8 * w)) :=
    lt_min (by omega) (by omega)
  refine ⟨by omega, by rw [hlen2]; exact hdvd, ?_⟩
  exact render_ne_none_of_dvd _ w top_left bot_right (by rw [hlen2]; exact hdvd)

/-- C10 witness: bounds (2,3); the first band is `[0, 0]`, one whole row
of width 2, and render succeeds on it. -/
theorem c10_bands_render_safe_witness :
    [0, 0].length ≠ 0 ∧ (2 : ℕ) ∣ [0, 0].length ∧
    render [0, 0] (2, [0, 0].length / 2) ⟨ofInt 0, ofInt 0⟩ ⟨ofInt 1, ofInt 1⟩ ≠ none :=
  c10_bands_render_safe 2 3 (by decide) (by decide) [0, 0, 0, 0, 0, 0] (by decide)
    ⟨ofInt 0, ofInt 0⟩ ⟨ofInt 1, ofInt 1⟩ [0, 0]
    (by rw [show rows_per_band 3 8 * 2 = 2 by rfl]
        rw [chunks_cons (by decide) 0 [0, 0, 0, 0, 0]]
        simp)

/-! ## Render loop characterisation -/

/-- Writing `g 0, ..., g (w-1)` at consecutive indices `s, ..., s + w - 1`
replaces that segment of the buffer. -/
theorem foldl_set_run (g : ℕ → ℕ) (w : ℕ) :
    ∀ (b : List ℕ) (s : ℕ), s + w ≤ b.length →
    (List.range w).foldl (fun b2 c => b2.set (s + c) (g c)) b
      = b.take s ++ (List.range w).map g ++ b.drop (s + w) := by
  induction w with
  | zero =>
    intro b s hle
    simp [List.take_append_drop]
  | succ n ih =>
    intro b s hle
    have hadd : s + (n + 1) = s + n + 1 := by omega
    rw [hadd]
    rw [List.range_succ, List.foldl_append, List.map_append, ih b s (by omega)]
    simp only [List.foldl_cons, List.foldl_nil, List.map_cons, List.map_nil]
    have hX : (b.take s).length = s := by
      rw [List.length_take]; omega
    have hXY : (b.take s ++ (List.range n).map g).length = s + n := by
      simp [hX]
    rw [List.set_append, hXY, if_neg (by omega)]
    have hsn : s + n < b.length := by omega
    rw [List.drop_eq_getElem_cons hsn]
    simp only [Nat.sub_self, List.set_cons_zero]
    simp

/-- Lengths of uniformly built rows. -/
theorem rows_flatten_length (w : ℕ) (f : ℕ → ℕ → ℕ) :
    ∀ k : ℕ,
    (((List.range k).map (fun row => (List.range w).map (f row))).flatten).length
      = k * w := by
  intro k
  induction k with
  | zero => simp
  | succ n ih =>
    rw [List.range_succ, List.map_append, List.flatten_append, List.length_append, ih]
    simp [Nat.succ_mul]

/-- After the outer loop has processed the rows `< k`, the buffer is the
rendered rows followed by the untouched tail. -/
theorem renderLoop_rows (w h : ℕ) (top_left bot_right : Cx) (b : List ℕ)
    (hlen : b.length = w * h) :
    ∀ k, k ≤ h →
    (List.range k).foldl
        (fun bb row => (List.range w).foldl
          (fun b2 col => b2.set (row * w + col)
            (pixByte (w, h) top_left bot_right col row)) bb)
        b
      = ((List.range k).map (fun row =>
          (List.range w).map (fun col => pixByte (w, h) top_left bot_right col row))).flatten
        ++ b.drop (k * w) := by
  intro k
  induction k with
  | zero => simp
  | succ n ih =>
    intro hk
    rw [List.range_succ, List.foldl_append, ih (by omega)]
    simp only [List.foldl_cons, List.foldl_nil]
    have hflatlen :
        (((List.range n).map (fun row =>
          (List.range w).map (fun col =>
            pixByte (w, h) top_left bot_right col row))).flatten).length
          = n * w := rows_flatten_length w _ n
    have hnh : n ≤ h := by omega
    have hBlen :
        (((List.range n).map (fun row =>
          (List.range w).map (fun col =>
            pixByte (w, h) top_left bot_right col row))).flatten
          ++ b.drop (n * w)).length = b.length := by
      rw [List.length_append, hflatlen, List.length_drop]
      have hnw : n * w ≤ h * w := Nat.mul_le_mul_right w hnh
      have e2 : h * w = w * h := Nat.mul_comm _ _
      omega
    have hcond : n * w + w ≤
        (((List.range n).map (fun row =>
          (List.range w).map (fun col =>
            pixByte (w, h) top_left bot_right col row))).flatten
          ++ b.drop (n * w)).length := by
      rw [hBlen, hlen]
      have h1 : (n + 1) * w ≤ h * w := Nat.mul_le_mul_right w hk
      have e : (n + 1) * w = n * w + w := by ring
      have e2 : h * w = w * h := Nat.mul_comm _ _
      omega
    refine Eq.trans (foldl_set_run
      (fun col => pixByte (w, h) top_left bot_right col n) w _ (n * w) hcond) ?_
    rw [List.take_left' hflatlen]
    have hdrop :
        (((List.range n).map (fun row =>
          (List.range w).map (fun col =>
            pixByte (w, h) top_left bot_right col row))).flatten
          ++ b.drop (n * w)).drop (n * w + w) = b.drop ((n + 1) * w) := by
      rw [← List.drop_drop, List.drop_left' hflatlen, List.drop_drop, Nat.succ_mul]
    rw [hdrop, List.map_append, List.flatten_append]
    simp [List.append_assoc]

/-- The render loop rewrites the whole buffer into the row-major map of
per-pixel bytes. -/
theorem renderLoop_eq (w h : ℕ) (top_left bot_right : Cx) (b : List ℕ)
    (hlen : b.length = w * h) :
    renderLoop b (w, h) top_left bot_right
      = ((List.range h).map (fun row =>
          (List.range w).map (fun col =>
            pixByte (w, h) top_left bot_right col row))).flatten := by
  unfold renderLoop
  refine Eq.trans (renderLoop_rows w h top_left bot_right b hlen h (Nat.le_refl h)) ?_
  rw [show h * w = b.length by rw [hlen, Nat.mul_comm], List.drop_length, List.append_nil]

/-- Flat index lookup in a uniform row decomposition. -/
theorem flatten_getElem_uniform (w : ℕ) :
    ∀ (rows : List (List ℕ)) (row col : ℕ), (∀ r ∈ rows, r.length = w) →
    ∀ (hrow : row < rows.length), col < w →
    rows.flatten[row * w + col]? = rows[row][col]? := by
  intro rows
  induction rows with
  | nil => intro row col _ hrow; simp at hrow
  | cons r rest ih =>
    intro row col hr hrow hcol
    have hrlen : r.length = w := hr r (List.mem_cons_self r rest)
    cases row with
    | zero =>
      simp only [Nat.zero_mul, Nat.zero_add, List.flatten_cons, List.getElem_cons_zero]
      rw [List.getElem?_append, if_pos (by omega)]
    | succ m =>
      simp only [List.flatten_cons, List.getElem_cons_succ]
      rw [List.getElem?_append_right (by rw [hrlen]; rw [Nat.succ_mul]; omega)]
      rw [hrlen, show (m + 1) * w + col - w = m * w + col by rw [Nat.succ_mul]; omega]
      exact ih m col (fun y hy => hr y (List.mem_cons_of_mem r hy)) (by simpa using hrow) hcol

/-! ## C4: bytes render writes -/

/-- C4: for every pixel `(row, col)` inside the bounds, `render` (under
its length precondition) produces a buffer whose byte at offset
`row * width + col` is `0` when `escape_time` with limit 255 reports
bounded, and `255 - i` when it escapes at iteration `i`; with limit 255
the escape index satisfies `i < 255`, so the `u8` subtraction `255 - i`
cannot wrap and an escaped pixel never yields the byte `0`. -/
theorem c4_render_writes (w h row col : ℕ) (top_left bot_right : Cx) (buf : List ℕ)
    (hlen : buf.length = w * h) (hr : row < h) (hc : col < w) :
    (∃ out, render buf (w, h) top_left bot_right = some out ∧
        out[row * w + col]? = some (pixByte (w, h) top_left bot_right col row)) ∧
    (escape_time (pixel_to_point (w, h) (col, row) top_left bot_right) 255 = none →
        pixByte (w, h) top_left bot_right col row = 0) ∧
    (∀ i, escape_time (pixel_to_point (w, h) (col, row) top_left bot_right) 255 = some i →
        i < 255 ∧ pixByte (w, h) top_left bot_right col row = 255 - i ∧
        pixByte (w, h) top_left bot_right col row ≠ 0) := by
  refine ⟨?_, ?_, ?_⟩
  · refine ⟨renderLoop buf (w, h) top_left bot_right, by simp [render, hlen], ?_⟩
    rw [renderLoop_eq w h top_left bot_right buf hlen]
    have hrow : row < ((List.range h).map (fun row =>
        (List.range w).map (fun col =>
          pixByte (w, h) top_left bot_right col row))).length := by
      simpa using hr
    rw [flatten_getElem_uniform w _ row col
      (by intro r hrmem
          rcases List.mem_map.mp hrmem with ⟨a, _, rfl⟩
          simp) hrow hc]
    rw [List.getElem_map, List.getElem_range]
    rw [List.getElem?_map, List.getElem?_range hc]
    rfl
  · intro hnone
    simp [pixByte, colorOf, hnone]
  · intro i hi
    have hlt := escape_time_lt _ 255 i hi
    have hmod : i % 256 = i := Nat.mod_eq_of_lt (by omega)
    refine ⟨hlt, ?_, ?_⟩
    · simp [pixByte, colorOf, hi, hmod]
    · simp only [pixByte, colorOf, hi, hmod]
      omega

/-- C4 witness: a 1-by-1 render at corners around `c = 4 + 4i`; the point
escapes at iteration 0 and the written byte is `255`. -/
theorem c4_render_writes_witness :
    ∃ out, render [7] (1, 1) ⟨ofInt 4, ofInt 4⟩ ⟨ofInt 5, ofInt 3⟩ = some out ∧
      out[0 * 1 + 0]? = some (pixByte (1, 1) ⟨ofInt 4, ofInt 4⟩ ⟨ofInt 5, ofInt 3⟩ 0 0) :=
  (c4_render_writes 1 1 0 0 ⟨ofInt 4, ofInt 4⟩ ⟨ofInt 5, ofInt 3⟩ [7]
    (by decide) (by decide) (by decide)).1

/-! ## Facts about rounding positive integers -/

/-- `p2` is the usual power. -/
theorem p2_eq (e : ℕ) : p2 e = 2 ^ e := rfl

/-- Specification of the fuel-driven base-2 logarithm. -/
theorem ilog2go_spec : ∀ (fuel n : ℕ), 1 ≤ n → n ≤ fuel →
    p2 (ilog2go fuel n) ≤ n ∧ n < p2 (ilog2go fuel n + 1) := by
  intro fuel
  induction fuel with
  | zero => intro n h1 h2; omega
  | succ m ih =>
    intro n h1 h2
    by_cases hn : n ≤ 1
    · have hn1 : n = 1 := by omega
      subst hn1
      simp [ilog2go, p2]
    · simp only [ilog2go, if_neg hn]
      rcases ih (n / 2) (by omega) (by omega) with ⟨hlo, hhi⟩
      have e1 : p2 (ilog2go m (n / 2) + 1) = 2 * p2 (ilog2go m (n / 2)) := by
        simp [p2_eq, Nat.pow_succ]; ring
      have e2 : p2 (ilog2go m (n / 2) + 1 + 1) = 2 * p2 (ilog2go m (n / 2) + 1) := by
        simp [p2_eq, Nat.pow_succ]; ring
      constructor
      · rw [e1]; omega
      · rw [e2]; omega

/-- Bounds on `ilog2`. -/
theorem ilog2_spec (n : ℕ) (h1 : 1 ≤ n) : p2 (ilog2 n) ≤ n ∧ n < p2 (ilog2 n + 1) :=
  ilog2go_spec n n h1 (Nat.le_refl n)

/-- Round-to-nearest of a quotient at least one is at least one. -/
theorem rnEpos_ge_one (xn xd : ℤ) (hd : 1 ≤ xd) (hnd : xd ≤ xn) : 1 ≤ rnEpos xn xd := by
  have hq := Int.fdiv_add_fmod xn xd
  have hm0 : 0 ≤ xn.fmod xd := Int.fmod_nonneg (by omega) (by omega)
  have hmlt : xn.fmod xd < xd := Int.fmod_lt_of_pos xn (by omega)
  have hq1 : 1 ≤ xn.fdiv xd := by
    by_contra hcon
    push_neg at hcon
    have hle : xn.fdiv xd ≤ 0 := by omega
    have : xd * xn.fdiv xd ≤ 0 := mul_nonpos_of_nonneg_of_nonpos (by omega) hle
    omega
  simp only [rnEpos]
  split_ifs <;> omega

/-- Canonicalisation keeps a positive mantissa positive. -/
theorem canonGo_pos : ∀ (fuel : ℕ) (m k : ℤ), 1 ≤ m →
    ∃ m2 k2 : ℤ, canonGo fuel m k = F64.fin m2 k2 ∧ 1 ≤ m2 := by
  intro fuel
  induction fuel with
  | zero => intro m k hm; exact ⟨m, k, rfl, hm⟩
  | succ f ih =>
    intro m k hm
    by_cases he : m % 2 = 0
    · simp only [canonGo, if_pos he]
      exact ih (m / 2) (k + 1) (by omega)
    · simp only [canonGo, if_neg he]
      exact ⟨m, k, rfl, hm⟩

/-- Rounding a positive integer never produces NaN or zero: the result is
an infinity (overflow) or a finite double with positive mantissa. -/
theorem roundPos_int_cases (z : ℤ) (hz : 1 ≤ z) :
    (∃ s, roundPos z 1 = F64.inf s) ∨
    (∃ m k, roundPos z 1 = F64.fin m k ∧ 1 ≤ m) := by
  have hE2 : flog2Frac z 1 = (ilog2 z.toNat : ℤ) := by
    simp only [flog2Frac]
    rw [if_pos hz, Int.fdiv_one]
  rcases ilog2_spec z.toNat (by omega) with ⟨hlog1, hlog2⟩
  have hEnn : (0 : ℤ) ≤ (ilog2 z.toNat : ℤ) := Int.natCast_nonneg _
  have hmax : max ((ilog2 z.toNat : ℤ) - 52) (-1074) = (ilog2 z.toNat : ℤ) - 52 :=
    max_eq_left (by omega)
  simp only [roundPos, hE2, hmax]
  by_cases hk : 0 ≤ (ilog2 z.toNat : ℤ) - 52
  · rw [if_pos hk, if_pos hk]
    have hm1 : 1 ≤ rnEpos z (1 * (p2 ((ilog2 z.toNat : ℤ) - 52).toNat : ℤ)) := by
      apply rnEpos_ge_one
      · have h1 : (1 : ℕ) ≤ p2 ((ilog2 z.toNat : ℤ) - 52).toNat := by
          rw [p2_eq]; exact Nat.one_le_two_pow
        have h2 : (1 : ℤ) ≤ (p2 ((ilog2 z.toNat : ℤ) - 52).toNat : ℤ) := by
          exact_mod_cast h1
        omega
      · have hle : ((ilog2 z.toNat : ℤ) - 52).toNat ≤ ilog2 z.toNat := by omega
        have h2 : p2 ((ilog2 z.toNat : ℤ) - 52).toNat ≤ p2 (ilog2 z.toNat) := by
          rw [p2_eq, p2_eq]
          exact Nat.pow_le_pow_right (by omega) hle
        have h3 : p2 ((ilog2 z.toNat : ℤ) - 52).toNat ≤ z.toNat := le_trans h2 hlog1
        have h4 : ((p2 ((ilog2 z.toNat : ℤ) - 52).toNat : ℕ) : ℤ) ≤ (z.toNat : ℤ) := by
          exact_mod_cast h3
        have h5 : (z.toNat : ℤ) = z := Int.toNat_of_nonneg (by omega)
        omega
    split_ifs with hov hm0
    · exact Or.inl ⟨false, rfl⟩
    · omega
    · simp only [canon]
      rcases canonGo_pos 60 _ ((ilog2 z.toNat : ℤ) - 52) hm1 with ⟨m2, k2, heq, hm2⟩
      exact Or.inr ⟨m2, k2, heq, hm2⟩
  · rw [if_neg hk, if_neg hk]
    have hm1 : 1 ≤ rnEpos (z * (p2 (-((ilog2 z.toNat : ℤ) - 52)).toNat : ℤ)) 1 := by
      apply rnEpos_ge_one
      · omega
      · have h1 : (1 : ℕ) ≤ p2 (-((ilog2 z.toNat : ℤ) - 52)).toNat := by
          rw [p2_eq]; exact Nat.one_le_two_pow
        have h2 : (1 : ℤ) ≤ (p2 (-((ilog2 z.toNat : ℤ) - 52)).toNat : ℤ) := by
          exact_mod_cast h1
        nlinarith
    split_ifs with hov hm0
    · exact Or.inl ⟨false, rfl⟩
    · omega
    · simp only [canon]
      rcases canonGo_pos 60 _ ((ilog2 z.toNat : ℤ) - 52) hm1 with ⟨m2, k2, heq, hm2⟩
      exact Or.inr ⟨m2, k2, heq, hm2⟩

/-- On a positive numerator `roundFrac` is `roundPos`. -/
theorem roundFrac_of_pos (z d : ℤ) (hz : 0 < z) : roundFrac ⟨z, d⟩ = roundPos z d := by
  show (if z = 0 then F64.fin 0 0
    else if z < 0 then
      match roundPos (-z) d with
      | F64.nan => F64.nan
      | F64.inf _ => F64.inf true
      | F64.fin m k => F64.fin (-m) k
    else roundPos z d) = roundPos z d
  rw [if_neg (by omega), if_neg (by omega)]

/-- Rounding a positive integer, through `roundFrac`. -/
theorem roundFrac_pos_cases (z : ℤ) (hz : 1 ≤ z) :
    (∃ s, roundFrac ⟨z, 1⟩ = F64.inf s) ∨
    (∃ m k, roundFrac ⟨z, 1⟩ = F64.fin m k ∧ 1 ≤ m) := by
  rw [roundFrac_of_pos z 1 (by omega)]
  exact roundPos_int_cases z hz

/-- The `usize as f64` conversion of a positive width is an infinity or a
finite double with positive mantissa (never NaN, never zero). -/
theorem natToF64_pos_cases (w : ℕ) (hw : 1 ≤ w) :
    (∃ s, natToF64 w = F64.inf s) ∨
    (∃ m k, natToF64 w = F64.fin m k ∧ 1 ≤ m) :=
  roundFrac_pos_cases (w : ℤ) (by exact_mod_cast hw)

/-! ## Binary64 facts about exact zeros -/

/-- Multiplying the exact zero by any finite double gives the exact zero. -/
theorem fmul_zero_fin (m k : ℤ) : fmul (F64.fin 0 0) (F64.fin m k) = F64.fin 0 0 := by
  show roundFrac (fracMul (mkF 0 0) (mkF m k)) = F64.fin 0 0
  have hy : mkF 0 0 = ⟨0, 1⟩ := by decide
  rw [hy]
  simp [fracMul, roundFrac]

/-- Dividing the exact zero by a nonzero finite double, or by an
infinity, gives the exact zero. -/
theorem fdiv_zero_of_pos_cases (x : F64)
    (hx : (∃ s, x = F64.inf s) ∨ (∃ m k, x = F64.fin m k ∧ 1 ≤ m)) :
    fdiv (F64.fin 0 0) x = F64.fin 0 0 := by
  rcases hx with ⟨s, rfl⟩ | ⟨m, k, rfl, hm⟩
  · rfl
  · show (if m = 0 then (if (0 : ℤ) = 0 then F64.nan else F64.inf (decide ((0 : ℤ) < 0)))
      else roundFrac (fracDiv (mkF 0 0) (mkF m k))) = F64.fin 0 0
    rw [if_neg (by omega)]
    have hy : mkF 0 0 = ⟨0, 1⟩ := by decide
    rw [hy]
    simp only [fracDiv]
    split_ifs <;> simp [roundFrac]

/-- Adding the exact zero to a representable finite double returns it. -/
theorem fadd_fin_zero (m k : ℤ) (hrepr : roundFrac (mkF m k) = F64.fin m k) :
    fadd (F64.fin m k) (F64.fin 0 0) = F64.fin m k := by
  show roundFrac (fracAdd (mkF m k) (mkF 0 0)) = F64.fin m k
  have hy : mkF 0 0 = ⟨0, 1⟩ := by decide
  rw [hy, show fracAdd (mkF m k) ⟨0, 1⟩ = mkF m k by simp [fracAdd], hrepr]

/-- Subtracting the exact zero from a representable finite double
returns it. -/
theorem fsub_fin_zero (m k : ℤ) (hrepr : roundFrac (mkF m k) = F64.fin m k) :
    fsub (F64.fin m k) (F64.fin 0 0) = F64.fin m k := by
  show roundFrac (fracSub (mkF m k) (mkF 0 0)) = F64.fin m k
  have hy : mkF 0 0 = ⟨0, 1⟩ := by decide
  rw [hy, show fracSub (mkF m k) ⟨0, 1⟩ = mkF m k by simp [fracSub], hrepr]

/-! ## C3: corner exactness -/

/-- C3 counterexample: with bounds `(1,1)`, `top_left = (1.0, 1.0)` and
`bot_right = (2^-60, 2^-60)` (all components finite doubles), the
difference `bot_right.re - top_left.re` rounds to `-1.0`, so pixel
`(width, height) = (1,1)` maps to `(0.0, 0.0)`, not to `bot_right`: the
two corner-exactness equations do not both hold. -/
theorem c3_counterexample :
    ¬ (pixel_to_point (1, 1) (0, 0) ⟨ofInt 1, ofInt 1⟩ ⟨F64.fin 1 (-60), F64.fin 1 (-60)⟩
         = ⟨ofInt 1, ofInt 1⟩ ∧
       pixel_to_point (1, 1) (1, 1) ⟨ofInt 1, ofInt 1⟩ ⟨F64.fin 1 (-60), F64.fin 1 (-60)⟩
         = ⟨F64.fin 1 (-60), F64.fin 1 (-60)⟩) := by decide

/-- C3 (amended): mapping pixel `(0,0)` yields exactly `top_left`
whenever the corners are finite doubles (`top_left` written as a
representable dyadic) and the two corner differences do not overflow to
infinity.  Mapping pixel `(width, height)` does not in general yield
`bot_right` exactly (see the counterexample): rounding in
`bot_right.re - top_left.re` and in the subsequent multiply, divide and
add can move the result. -/
theorem c3_top_left_exact (w h : ℕ) (hw : 1 ≤ w) (hh : 1 ≤ h)
    (top_left bot_right : Cx) (a ka b kb : ℤ)
    (hre : top_left.re = F64.fin a ka) (him : top_left.im = F64.fin b kb)
    (hra : roundFrac (mkF a ka) = F64.fin a ka)
    (hrb : roundFrac (mkF b kb) = F64.fin b kb)
    (hwfin : (fsub bot_right.re top_left.re).isFinite = true)
    (hhfin : (fsub top_left.im bot_right.im).isFinite = true) :
    pixel_to_point (w, h) (0, 0) top_left bot_right = top_left := by
  obtain ⟨mw, kw, hW⟩ : ∃ m2 k2, fsub bot_right.re top_left.re = F64.fin m2 k2 := by
    cases hcase : fsub bot_right.re top_left.re with
    | nan => rw [hcase] at hwfin; simp [F64.isFinite] at hwfin
    | inf s => rw [hcase] at hwfin; simp [F64.isFinite] at hwfin
    | fin m2 k2 => exact ⟨m2, k2, rfl⟩
  obtain ⟨mh, kh, hH⟩ : ∃ m2 k2, fsub top_left.im bot_right.im = F64.fin m2 k2 := by
    cases hcase : fsub top_left.im bot_right.im with
    | nan => rw [hcase] at hhfin; simp [F64.isFinite] at hhfin
    | inf s => rw [hcase] at hhfin; simp [F64.isFinite] at hhfin
    | fin m2 k2 => exact ⟨m2, k2, rfl⟩
  have hzero : natToF64 0 = F64.fin 0 0 := by decide
  have hdivw : fdiv (F64.fin 0 0) (natToF64 w) = F64.fin 0 0 :=
    fdiv_zero_of_pos_cases _ (natToF64_pos_cases w hw)
  have hdivh : fdiv (F64.fin 0 0) (natToF64 h) = F64.fin 0 0 :=
    fdiv_zero_of_pos_cases _ (natToF64_pos_cases h hh)
  show Cx.mk
      (fadd top_left.re
        (fdiv (fmul (natToF64 0) (fsub bot_right.re top_left.re)) (natToF64 w)))
      (fsub top_left.im
        (fdiv (fmul (natToF64 0) (fsub top_left.im bot_right.im)) (natToF64 h)))
      = top_left
  rw [hW, hH, hzero, fmul_zero_fin mw kw, fmul_zero_fin mh kh, hdivw, hdivh,
    hre, him, fadd_fin_zero a ka hra, fsub_fin_zero b kb hrb, ← hre, ← him]

/-- C3 witness: the canonical corners `(-1, 1)` and `(1, -1)` with bounds
`(100, 100)`: pixel `(0,0)` maps exactly to `top_left`. -/
theorem c3_top_left_exact_witness :
    pixel_to_point (100, 100) (0, 0) ⟨F64.fin (-1) 0, F64.fin 1 0⟩
        ⟨F64.fin 1 0, F64.fin (-1) 0⟩
      = ⟨F64.fin (-1) 0, F64.fin 1 0⟩ :=
  c3_top_left_exact 100 100 (by decide) (by decide)
    ⟨F64.fin (-1) 0, F64.fin 1 0⟩ ⟨F64.fin 1 0, F64.fin (-1) 0⟩
    (-1) 0 1 0 rfl rfl (by decide) (by decide) (by decide) (by decide)

/-! ## Band ranges: disjointness and coverage -/

/-- Distinct bands occupy disjoint index ranges. -/
theorem band_ranges_disjoint (s L i k j : ℕ) (hik : i ≠ k)
    (hj1 : bandStart s i ≤ j) (hj2 : j < bandStart s i + bandLen s L i) :
    ¬ (bandStart s k ≤ j ∧ j < bandStart s k + bandLen s L k) := by
  rintro ⟨hk1, hk2⟩
  simp only [bandStart, bandLen] at hj1 hj2 hk1 hk2
  rcases Nat.lt_or_ge i k with hlt | hge
  · have h1 : j < i * s + s := by
      have := Nat.min_le_left s (L - i * s); omega
    have h2 : (i + 1) * s ≤ k * s := Nat.mul_le_mul_right s (by omega)
    have e : (i + 1) * s = i * s + s := by ring
    omega
  · have hgt : k < i := by omega
    have h1 : j < k * s + s := by
      have := Nat.min_le_left s (L - k * s); omega
    have h2 : (k + 1) * s ≤ i * s := Nat.mul_le_mul_right s (by omega)
    have e : (k + 1) * s = k * s + s := by ring
    omega

/-- A band's index range lies inside the buffer. -/
theorem band_range_subset (s L i j : ℕ)
    (hin : bandStart s i ≤ j ∧ j < bandStart s i + bandLen s L i) : j < L := by
  unfold bandStart bandLen at hin
  have := Nat.min_le_right s (L - i * s)
  omega

/-- Every buffer index lies in the range of band `j / s`. -/
theorem band_of_index (s L j : ℕ) (hs : s ≠ 0) (hj : j < L) :
    bandStart s (j / s) ≤ j ∧ j < bandStart s (j / s) + bandLen s L (j / s) := by
  unfold bandStart bandLen
  have hdm := Nat.div_add_mod j s
  have hmod := Nat.mod_lt j (show 0 < s by omega)
  have e : j / s * s = s * (j / s) := Nat.mul_comm _ _
  refine ⟨by omega, ?_⟩
  rcases Nat.le_total s (L - j / s * s) with hmin | hmin
  · rw [Nat.min_eq_left hmin]; omega
  · rw [Nat.min_eq_right hmin]; omega

/-- The band holding a valid index is one of the dispatched bands. -/
theorem band_of_index_lt (s L j : ℕ) (hs : s ≠ 0) (hj : j < L) :
    j / s < numBands s L := by
  unfold numBands
  have h1 : j / s * s ≤ j := Nat.div_mul_le_self j s
  rw [Nat.lt_iff_add_one_le]
  apply (Nat.le_div_iff_mul_le (show 0 < s by omega)).mpr
  have e : (j / s + 1) * s = j / s * s + s := by ring
  omega

/-- Every band length is a multiple of the width. -/
theorem bandLen_dvd (w h rpb i : ℕ) : w ∣ bandLen (rpb * w) (w * h) i := by
  unfold bandLen
  rcases Nat.le_total (rpb * w) (w * h - i * (rpb * w)) with hmin | hmin
  · rw [Nat.min_eq_left hmin]; exact dvd_mul_left w rpb
  · rw [Nat.min_eq_right hmin]
    exact Nat.dvd_sub' (dvd_mul_right w h) (Dvd.dvd.mul_left (dvd_mul_left w rpb) i)

/-- Row count of a band, in terms of rows. -/
theorem bandHeight_eq (w h t i : ℕ) (hw : 1 ≤ w) :
    bandHeight w h t i
      = min (rows_per_band h t) (h - rows_per_band h t * i) := by
  unfold bandHeight bandLen
  rcases Nat.le_total (rows_per_band h t * i) h with hle | hlt
  · have e : w * h - i * (rows_per_band h t * w)
        = w * (h - rows_per_band h t * i) := by
      have hsplit : w * h
          = w * (h - rows_per_band h t * i) + i * (rows_per_band h t * w) := by
        calc w * h = w * ((h - rows_per_band h t * i) + rows_per_band h t * i) := by
              rw [Nat.sub_add_cancel hle]
        _ = w * (h - rows_per_band h t * i) + i * (rows_per_band h t * w) := by ring
      omega
    rw [e]
    rcases Nat.le_total (rows_per_band h t) (h - rows_per_band h t * i) with h2 | h2
    · rw [Nat.min_eq_left h2, Nat.min_eq_left
        (by calc rows_per_band h t * w = w * rows_per_band h t := Nat.mul_comm _ _
          _ ≤ w * (h - rows_per_band h t * i) := Nat.mul_le_mul_left w h2)]
      exact Nat.mul_div_cancel _ (by omega)
    · rw [Nat.min_eq_right h2, Nat.min_eq_right
        (by calc w * (h - rows_per_band h t * i) ≤ w * rows_per_band h t :=
              Nat.mul_le_mul_left w h2
          _ = rows_per_band h t * w := Nat.mul_comm _ _)]
      exact Nat.mul_div_cancel_left _ (by omega)
  · have e0 : h - rows_per_band h t * i = 0 := by omega
    have e1 : w * h - i * (rows_per_band h t * w) = 0 := by
      have : w * h ≤ i * (rows_per_band h t * w) := by
        calc w * h ≤ w * (rows_per_band h t * i) := Nat.mul_le_mul_left w hlt
        _ = i * (rows_per_band h t * w) := by ring
      omega
    rw [e0, e1]
    simp

/-! ## Applying bands in any scheduling order -/

/-- Unfolding `applyBands` one band at a time. -/
theorem applyBands_cons (w h t : ℕ) (tl br : Cx) (k : ℕ) (rest : List ℕ) (b : ℕ → ℕ) :
    applyBands w h t tl br (k :: rest) b
      = applyBands w h t tl br rest (applyBand w h t tl br k b) := rfl

/-- A band leaves indices outside its range untouched. -/
theorem applyBand_not_mem (w h t : ℕ) (tl br : Cx) (k : ℕ) (b : ℕ → ℕ) (j : ℕ)
    (hj : ¬ (bandStart (rows_per_band h t * w) k ≤ j ∧
        j < bandStart (rows_per_band h t * w) k
            + bandLen (rows_per_band h t * w) (w * h) k)) :
    applyBand w h t tl br k b j = b j := by
  unfold applyBand
  rw [if_neg hj]

/-- A band writes its own bytes inside its range. -/
theorem applyBand_mem (w h t : ℕ) (tl br : Cx) (i : ℕ) (b : ℕ → ℕ) (j : ℕ)
    (hj : bandStart (rows_per_band h t * w) i ≤ j ∧
        j < bandStart (rows_per_band h t * w) i
            + bandLen (rows_per_band h t * w) (w * h) i) :
    applyBand w h t tl br i b j
      = (bandBytes w h t tl br i).getD (j - bandStart (rows_per_band h t * w) i) 0 := by
  unfold applyBand
  rw [if_pos hj]

/-- If no scheduled band covers an index, the buffer is untouched there. -/
theorem applyBands_not_mem (w h t : ℕ) (tl br : Cx) :
    ∀ (order : List ℕ) (b : ℕ → ℕ) (j : ℕ),
    (∀ k ∈ order, ¬ (bandStart (rows_per_band h t * w) k ≤ j ∧
        j < bandStart (rows_per_band h t * w) k
            + bandLen (rows_per_band h t * w) (w * h) k)) →
    applyBands w h t tl br order b j = b j := by
  intro order
  induction order with
  | nil => intro b j _; rfl
  | cons k rest ih =>
    intro b j hall
    rw [applyBands_cons, ih _ j (fun k2 hk2 => hall k2 (List.mem_cons_of_mem k hk2))]
    exact applyBand_not_mem w h t tl br k b j (hall k (List.mem_cons_self k rest))

/-- If the band holding an index is scheduled (each band at most once),
the final byte at that index is that band's byte, independently of the
scheduling order and of the initial buffer. -/
theorem applyBands_mem (w h t : ℕ) (tl br : Cx) (i j : ℕ)
    (hin : bandStart (rows_per_band h t * w) i ≤ j ∧
        j < bandStart (rows_per_band h t * w) i
            + bandLen (rows_per_band h t * w) (w * h) i) :
    ∀ (order : List ℕ), order.Nodup → i ∈ order → ∀ (b : ℕ → ℕ),
    applyBands w h t tl br order b j
      = (bandBytes w h t tl br i).getD (j - bandStart (rows_per_band h t * w) i) 0 := by
  intro order
  induction order with
  | nil => intro _ hmem; simp at hmem
  | cons k rest ih =>
    intro hnd hmem b
    rw [applyBands_cons]
    by_cases hk : k = i
    · subst hk
      have hrest : k ∉ rest := (List.nodup_cons.mp hnd).1
      rw [applyBands_not_mem w h t tl br rest _ j
        (fun k2 hk2 => band_ranges_disjoint _ _ k k2 j
          (fun he => hrest (he ▸ hk2)) hin.1 hin.2)]
      exact applyBand_mem w h t tl br k b j hin
    · have hmem2 : i ∈ rest := by
        rcases List.mem_cons.mp hmem with he | hm
        · exact absurd he.symm hk
        · exact hm
      exact ih (List.nodup_cons.mp hnd).2 hmem2 _

/-- What `main` runs on band `i` is `render` with the band's slice, the
band bounds `(w, band.len() / w)` and the corners computed from the
global bounds; the result is exactly `bandBytes`. -/
theorem band_render_eq (w h t : ℕ) (hw : 1 ≤ w) (tl br : Cx)
    (buf : List ℕ) (hlen : buf.length = w * h) (i : ℕ)
    (hi : i < (chunks (rows_per_band h t * w) buf).length) :
    render ((chunks (rows_per_band h t * w) buf)[i]) (w, bandHeight w h t i)
        (bandTopLeft w h t tl br i) (bandBotRight w h t tl br i)
      = some (bandBytes w h t tl br i) := by
  have hrpb : 1 ≤ rows_per_band h t := by
    unfold rows_per_band; exact Nat.le_add_left 1 (h / t)
  have hs : rows_per_band h t * w ≠ 0 := by
    have := Nat.mul_pos hrpb hw; omega
  have hblen : ((chunks (rows_per_band h t * w) buf)[i]).length
      = bandLen (rows_per_band h t * w) (w * h) i := by
    rw [chunks_getElem_length _ hs buf i hi, hlen]; rfl
  have hdvd : w ∣ bandLen (rows_per_band h t * w) (w * h) i := bandLen_dvd w h _ i
  have hguard : ((chunks (rows_per_band h t * w) buf)[i]).length
      = w * bandHeight w h t i := by
    rw [hblen]
    unfold bandHeight
    exact (Nat.mul_div_cancel' hdvd).symm
  unfold render
  rw [if_pos hguard]
  congr 1
  rw [renderLoop_eq w (bandHeight w h t i) (bandTopLeft w h t tl br i)
    (bandBotRight w h t tl br i) _ hguard]
  rfl

/-- Looking up a local pixel in a band's bytes. -/
theorem bandBytes_getD (w h t : ℕ) (tl br : Cx) (i lrow col : ℕ)
    (hl : lrow < bandHeight w h t i) (hc : col < w) :
    (bandBytes w h t tl br i).getD (lrow * w + col) 0
      = pixByte (w, bandHeight w h t i) (bandTopLeft w h t tl br i)
          (bandBotRight w h t tl br i) col lrow := by
  unfold bandBytes
  rw [List.getD_eq_getElem?_getD]
  have hrow : lrow < ((List.range (bandHeight w h t i)).map (fun row =>
      (List.range w).map (fun col => pixByte (w, bandHeight w h t i)
        (bandTopLeft w h t tl br i) (bandBotRight w h t tl br i) col row))).length := by
    simpa using hl
  rw [flatten_getElem_uniform w _ lrow col
    (by intro r hrmem
        rcases List.mem_map.mp hrmem with ⟨a, _, rfl⟩
        simp) hrow hc]
  rw [List.getElem_map, List.getElem_range]
  rw [List.getElem?_map, List.getElem?_range hc]
  rfl

/-- Decomposing a flat pixel index into its band and local offset. -/
theorem index_band_decomp (w rpb row col : ℕ) (hrpb : 1 ≤ rpb) (hc : col < w) :
    (row * w + col) / (rpb * w) = row / rpb ∧
    row * w + col - row / rpb * (rpb * w) = (row - rpb * (row / rpb)) * w + col := by
  have hdm := Nat.div_add_mod row rpb
  have hmod := Nat.mod_lt row (show 0 < rpb by omega)
  have hcomm : rpb * (row / rpb) = row / rpb * rpb := Nat.mul_comm _ _
  have hrow : row = row / rpb * rpb + row % rpb := by omega
  have hj : row * w + col = rpb * w * (row / rpb) + (row % rpb * w + col) := by
    calc row * w + col = (row / rpb * rpb + row % rpb) * w + col := by rw [← hrow]
    _ = rpb * w * (row / rpb) + (row % rpb * w + col) := by ring
  have hrem : row % rpb * w + col < rpb * w := by
    have h1 : (row % rpb + 1) * w ≤ rpb * w := Nat.mul_le_mul_right w (by omega)
    have e : (row % rpb + 1) * w = row % rpb * w + w := by ring
    omega
  have hwpos : 0 < rpb * w := Nat.mul_pos (by omega) (by omega)
  constructor
  · rw [hj, Nat.mul_add_div hwpos, Nat.div_eq_of_lt hrem, Nat.add_zero]
  · have e2 : row - rpb * (row / rpb) = row % rpb := by omega
    have e3 : row / rpb * (rpb * w) = rpb * w * (row / rpb) := by ring
    rw [e2, hj]
    omega

/-! ## C7: determinism and scheduling independence -/

/-- C7: dispatching the bands in any scheduling order produces the same
buffer.  Conjunct one anchors the band model: on each chunk `main`
dispatches, `render` succeeds and produces exactly the band's bytes.
Conjunct two: for any two schedules (permutations of the band list), the
final buffers agree at every index.  Conjunct three: each pixel's byte is
`pixelValue`, a function of the pixel's own coordinates and the global
inputs `(w, h, worker count, corners)` alone. -/
theorem c7_scheduling_determinism (w h t : ℕ) (hw : 1 ≤ w) (hh : 1 ≤ h) (ht : 1 ≤ t)
    (tl br : Cx) (order1 order2 : List ℕ)
    (hp1 : order1.Perm (List.range (numBands (rows_per_band h t * w) (w * h))))
    (hp2 : order2.Perm (List.range (numBands (rows_per_band h t * w) (w * h)))) :
    (∀ (buf : List ℕ), buf.length = w * h →
      ∀ i (hi : i < (chunks (rows_per_band h t * w) buf).length),
        render ((chunks (rows_per_band h t * w) buf)[i]) (w, bandHeight w h t i)
            (bandTopLeft w h t tl br i) (bandBotRight w h t tl br i)
          = some (bandBytes w h t tl br i)) ∧
    (∀ j, applyBands w h t tl br order1 (fun _ => 0) j
        = applyBands w h t tl br order2 (fun _ => 0) j) ∧
    (∀ row col, row < h → col < w →
        applyBands w h t tl br order1 (fun _ => 0) (row * w + col)
          = pixelValue w h t tl br row col) := by
  have hrpb : 1 ≤ rows_per_band h t := by
    unfold rows_per_band; exact Nat.le_add_left 1 (h / t)
  have hs : rows_per_band h t * w ≠ 0 := by
    have := Nat.mul_pos hrpb hw; omega
  have hval : ∀ (order : List ℕ),
      order.Perm (List.range (numBands (rows_per_band h t * w) (w * h))) →
      ∀ j, j < w * h →
      applyBands w h t tl br order (fun _ => 0) j
        = (bandBytes w h t tl br (j / (rows_per_band h t * w))).getD
            (j - bandStart (rows_per_band h t * w) (j / (rows_per_band h t * w))) 0 := by
    intro order hperm j hj
    have hnd : order.Nodup := hperm.nodup_iff.mpr (List.nodup_range _)
    have hmem : j / (rows_per_band h t * w) ∈ order :=
      hperm.mem_iff.mpr (List.mem_range.mpr (band_of_index_lt _ _ j hs hj))
    exact applyBands_mem w h t tl br _ j (band_of_index _ _ j hs hj) order hnd hmem _
  have hout : ∀ (order : List ℕ) (j : ℕ), w * h ≤ j →
      applyBands w h t tl br order (fun _ => 0) j = 0 := by
    intro order j hj
    exact applyBands_not_mem w h t tl br order (fun _ => 0) j
      (fun k hk hin => absurd (band_range_subset _ _ k j hin) (by omega))
  refine ⟨fun buf hblen i hi => band_render_eq w h t hw tl br buf hblen i hi, ?_, ?_⟩
  · intro j
    rcases Nat.lt_or_ge j (w * h) with hj | hj
    · rw [hval order1 hp1 j hj, hval order2 hp2 j hj]
    · rw [hout order1 j hj, hout order2 j hj]
  · intro row col hr hc
    have hj : row * w + col < w * h := by
      have h1 : (row + 1) * w ≤ h * w := Nat.mul_le_mul_right w (by omega)
      have e : (row + 1) * w = row * w + w := by ring
      have e2 : h * w = w * h := Nat.mul_comm _ _
      omega
    rw [hval order1 hp1 _ hj]
    rcases index_band_decomp w (rows_per_band h t) row col hrpb hc with ⟨hq, hrem⟩
    rw [hq]
    unfold bandStart
    rw [hrem]
    rw [bandBytes_getD w h t tl br (row / rows_per_band h t) _ col ?_ hc]
    · rfl
    · rw [bandHeight_eq w h t _ hw]
      have hdm := Nat.div_add_mod row (rows_per_band h t)
      have hmod := Nat.mod_lt row (show 0 < rows_per_band h t by omega)
      rcases Nat.le_total (rows_per_band h t)
          (h - rows_per_band h t * (row / rows_per_band h t)) with h2 | h2
      · rw [Nat.min_eq_left h2]; omega
      · rw [Nat.min_eq_right h2]; omega

/-- C7 witness: bounds (2,2), two bands, schedule `[1, 0]` versus the
canonical `[0, 1]`; pixel (0,0) gets its coordinate-determined byte. -/
theorem c7_scheduling_determinism_witness :
    ([1, 0] : List ℕ).Perm (List.range (numBands (rows_per_band 2 8 * 2) (2 * 2))) ∧
    applyBands 2 2 8 ⟨ofInt 0, ofInt 1⟩ ⟨ofInt 1, ofInt 0⟩ [1, 0] (fun _ => 0) (0 * 2 + 0)
      = pixelValue 2 2 8 ⟨ofInt 0, ofInt 1⟩ ⟨ofInt 1, ofInt 0⟩ 0 0 :=
  ⟨by decide,
   (c7_scheduling_determinism 2 2 8 (by decide) (by decide) (by decide)
     ⟨ofInt 0, ofInt 1⟩ ⟨ofInt 1, ofInt 0⟩ [1, 0]
     (List.range (numBands (rows_per_band 2 8 * 2) (2 * 2)))
     (by decide) (List.Perm.refl _)).2.2 0 0 (by decide) (by decide)⟩

end Mandelbrot

